import Mathlib

/-!
Verification of the adaptive vocabulary-drilling engine (Neon Drift: Word
Runner, `src/App.tsx`) against its natural-language specification.

The embedding below translates the algorithmic core of the source file into
Lean definitions: strings are lists of characters, JS numbers that stay
integral are `Int`/`Nat`, fractional mastery values and sampler weights are
`Rat`, timestamps are `Int` milliseconds, and every use of `Math.random`
is replaced by an explicitly injected value (a drawn roll, a mutation
stream, or a permutation hypothesis standing for an in-place shuffle).
-/

namespace NeonDrift

/-- JavaScript strings are modelled as lists of characters. -/
abbrev Str := List Char

/-- Source `clamp(value, min, max) = Math.min(max, Math.max(min, value))`. -/
def clamp {A : Type} [LinearOrder A] (value lo hi : A) : A :=
  min hi (max lo value)

/-- Per-word proficiency record, source type `WordStat`. -/
structure WordStat where
  exposures : Nat
  correct : Nat
  incorrect : Nat
  lastSeen : Int
  lastMiss : Int
  mastery : Rat
deriving DecidableEq

/-- The record installed by `ensureStats` for a word that has no entry yet. -/
def initialStat : WordStat :=
  { exposures := 0, correct := 0, incorrect := 0
    lastSeen := 0, lastMiss := 0, mastery := 0.4 }

/-- Self-rating buttons offered after feedback, source `handleSelfRating`. -/
inductive Rating
  | know
  | unsure
  | neutral
deriving DecidableEq

/-- Mastery-store part of `applyAnswer` (lines 543-558): bump the exposure
and outcome counters, stamp the timestamps, and move `mastery` by +0.08 on a
correct answer and -0.12 on an incorrect one, clamped to [0,1]. -/
def applyAnswerStat (isCorrect : Bool) (now : Int) (stat : WordStat) : WordStat :=
  let stat1 := { stat with exposures := stat.exposures + 1, lastSeen := now }
  if isCorrect then
    { stat1 with correct := stat1.correct + 1
                 mastery := clamp (stat1.mastery + 0.08) 0 1 }
  else
    { stat1 with incorrect := stat1.incorrect + 1
                 lastMiss := now
                 mastery := clamp (stat1.mastery - 0.12) 0 1 }

/-- Mastery-store part of `handleSelfRating` (lines 666-680): move mastery by
+0.1 for "know", -0.1 for "unsure", leave it unchanged for "neutral". -/
def applySelfRating (rating : Rating) (stat : WordStat) : WordStat :=
  match rating with
  | .know => { stat with mastery := clamp (stat.mastery + 0.1) 0 1 }
  | .unsure => { stat with mastery := clamp (stat.mastery - 0.1) 0 1 }
  | .neutral => stat

/-- An event that can mutate one word's mastery record. -/
inductive MasteryEvent
  | answer (isCorrect : Bool) (now : Int)
  | rate (rating : Rating)

/-- One mastery-record update step. -/
def stepStat (stat : WordStat) (e : MasteryEvent) : WordStat :=
  match e with
  | .answer c now => applyAnswerStat c now stat
  | .rate r => applySelfRating r stat

/-- The record a word carries after a sequence of events, starting from the
record `ensureStats` creates. -/
def runStat (events : List MasteryEvent) : WordStat :=
  events.foldl stepStat initialStat

/-- Session HUD state, source type `SessionState`. -/
structure SessionState where
  timeLeft : Int
  energy : Int
  score : Int
  streak : Nat
  longestStreak : Nat
  combo : Nat
  correct : Nat
  incorrect : Nat
deriving DecidableEq

/-- The state installed by `startSession`: full energy, zeroed counters,
combo multiplier 1. -/
def initSession (timeLeft : Int) : SessionState :=
  { timeLeft := timeLeft, energy := 100, score := 0, streak := 0
    longestStreak := 0, combo := 1, correct := 0, incorrect := 0 }

/-- Session part of `applyAnswer` (lines 562-581): streak increments on a
correct answer and resets on a miss, the combo multiplier is
`clamp(1 + floor(streak / 3), 1, 5)` on a correct answer and 1 on a miss,
score grows by `10 * combo` on correct answers only, and energy moves by
+8 / -18 clamped to [0,100]. -/
def applyAnswerSession (isCorrect : Bool) (prev : SessionState) : SessionState :=
  let streak := if isCorrect then prev.streak + 1 else 0
  let longestStreak := max prev.longestStreak streak
  let combo := if isCorrect then clamp (1 + streak / 3) 1 5 else 1
  let score := prev.score + (if isCorrect then 10 * (combo : Int) else 0)
  let energy := clamp (prev.energy + (if isCorrect then 8 else -18)) 0 100
  { prev with streak := streak, longestStreak := longestStreak
              combo := combo, score := score, energy := energy
              correct := prev.correct + (if isCorrect then 1 else 0)
              incorrect := prev.incorrect + (if isCorrect then 0 else 1) }

/-- The session state reached from a fresh session after a sequence of
answer-correctness verdicts. -/
def runSession (timeLeft : Int) (events : List Bool) : SessionState :=
  events.foldl (fun s c => applyAnswerSession c s) (initSession timeLeft)

/-- The session-end effect (lines 359-368): while playing, the session ends
when energy has reached 0, or, outside zen mode, when the clock has run
out. -/
def sessionShouldEnd (zen : Bool) (s : SessionState) : Bool :=
  if s.energy ≤ 0 then true
  else if zen = false ∧ s.timeLeft ≤ 0 then true
  else false

/-- The whitespace characters stripped by JavaScript `trim` (ASCII part). -/
def isJsSpace (c : Char) : Bool :=
  c = ' ' || c = '\t' || c = '\n' || c = '\r' || c = '\x0b' || c = '\x0c'

/-- JavaScript `String.prototype.trim`: strip whitespace at both ends. -/
def jsTrim (s : Str) : Str :=
  ((s.dropWhile isJsSpace).reverse.dropWhile isJsSpace).reverse

/-- First normalisation pass of `parseLines`: `replace(/\r\n/g, "\n")`. -/
def replaceCRLF : Str → Str
  | '\r' :: '\n' :: rest => '\n' :: replaceCRLF rest
  | c :: rest => c :: replaceCRLF rest
  | [] => []

/-- Second normalisation pass of `parseLines`: `replace(/\r/g, "\n")`. -/
def replaceCR (s : Str) : Str :=
  s.map (fun c => if c = '\r' then '\n' else c)

/-- JavaScript `split("\n")`. Splitting an empty string yields one empty
segment, exactly as in JavaScript. -/
def splitNL : Str → List Str
  | [] => [[]]
  | c :: rest =>
    if c = '\n' then [] :: splitNL rest
    else
      match splitNL rest with
      | [] => [[c]]
      | l :: ls => (c :: l) :: ls

/-- JavaScript `split(" - ")` on the three-character separator, matching
leftmost-first as `String.prototype.split` does. -/
def splitDash : Str → List Str
  | ' ' :: '-' :: ' ' :: rest => [] :: splitDash rest
  | c :: rest =>
    match splitDash rest with
    | [] => [[c]]
    | l :: ls => (c :: l) :: ls
  | [] => [[]]

/-- JavaScript `toLowerCase` on the ASCII words this app handles. -/
def jsToLower (s : Str) : Str :=
  s.map Char.toLower

/-- Decimal rendering of a line index, used for entry ids. -/
def natChars (n : Nat) : Str :=
  (Nat.repr n).toList

/-- One dictionary entry, source type `WordEntry`. -/
structure WordEntry where
  id : Str
  word : Str
  hint : Option Str
deriving DecidableEq

/-- The record returned by `parseLines`. -/
structure ParseResult where
  entries : List WordEntry
  emptyCount : Nat
  duplicateCount : Nat
  totalLines : Nat

/-- Accumulator threaded through the `lines.forEach` loop of `parseLines`. -/
structure ParseState where
  emptyCount : Nat
  duplicateCount : Nat
  seen : List Str
  entries : List WordEntry

/-- Body of the `lines.forEach` callback in `parseLines` (lines 143-168):
count blank lines (skipping them when requested), split off the hint at the
first `" - "`, skip empty words, count and skip case-insensitive duplicates
when requested, and otherwise emit a `WordEntry` whose id is the lowercase
word joined to the line index. -/
def parseStep (removeEmpty removeDuplicates : Bool) (index : Nat) (line : Str)
    (st : ParseState) : ParseState :=
  let trimmed := jsTrim line
  let st1 := if trimmed = [] then { st with emptyCount := st.emptyCount + 1 } else st
  if trimmed = [] ∧ removeEmpty = true then st1
  else
    let parts := splitDash trimmed
    let wordPart := parts.headD []
    let hintParts := parts.tail
    let word := jsTrim wordPart
    if word = [] then st1
    else
      let key := jsToLower word
      if removeDuplicates = true ∧ key ∈ st1.seen then
        { st1 with duplicateCount := st1.duplicateCount + 1 }
      else
        let hint := jsTrim (List.intercalate [' ', '-', ' '] hintParts)
        { st1 with
            seen := st1.seen ++ [key]
            entries := st1.entries ++
              [{ id := key ++ '-' :: natChars index
                 word := word
                 hint := if hint = [] then none else some hint }] }

/-- The `forEach` loop of `parseLines`, tracking the 0-based line index. -/
def parseAll (re rd : Bool) : Nat → List Str → ParseState → ParseState
  | _, [], st => st
  | i, line :: rest, st => parseAll re rd (i + 1) rest (parseStep re rd i line st)

/-- Source `parseLines` (lines 121-176): an input that trims to nothing
short-circuits to all-zero statistics; otherwise line endings are
normalised, the text is split into lines, and the per-line loop runs. -/
def parseLines (rawText : Str) (removeEmpty removeDuplicates : Bool) : ParseResult :=
  if jsTrim rawText = [] then
    { entries := [], emptyCount := 0, duplicateCount := 0, totalLines := 0 }
  else
    let lines := splitNL (replaceCR (replaceCRLF rawText))
    let st := parseAll removeEmpty removeDuplicates 0 lines
      { emptyCount := 0, duplicateCount := 0, seen := [], entries := [] }
    { entries := st.entries, emptyCount := st.emptyCount
      duplicateCount := st.duplicateCount, totalLines := lines.length }

/-- Lookup in the mutable stats mapping after `ensureStats` has run: a word
with no record yet reads as the freshly created default record. -/
def getStat (stats : List (Str × WordStat)) (word : Str) : WordStat :=
  match stats.lookup word with
  | some s => s
  | none => initialStat

/-- Weight of one candidate in `pickWeighted` (lines 198-208), written as
the source computes it: a 0.2 floor, a weakness term, a first-exposure
bonus, a recent-miss bonus inside a 36-hour window, and a halving penalty
when the candidate repeats the previous word. -/
def wordWeight (stats : List (Str × WordStat)) (lastWord : Option Str) (now : Int)
    (entry : WordEntry) : Rat :=
  let stat := getStat stats entry.word
  let recencyPenalty : Rat := if some entry.word = lastWord then 0.5 else 1
  let weak : Rat := 1 - stat.mastery
  let newBonus : Rat := if stat.exposures = 0 then 0.6 else 0
  let recentMiss : Rat := if now - stat.lastMiss < 36 * 60 * 60 * 1000 then 0.5 else 0
  (0.2 + weak * 0.9 + newBonus + recentMiss) * recencyPenalty

/-- The same weight transcribed from the specification text:
`weight = (0.2 + (1 − mastery)*0.9 + noveltyBonus + recentMissBonus) * recencyPenalty`
with `noveltyBonus = 0.6` iff `exposures == 0`, `recentMissBonus = 0.5` iff
`now − lastMissAt < 36h`, and `recencyPenalty = 0.5` iff the candidate's
word equals `lastWord`. -/
def specWeight (stats : List (Str × WordStat)) (lastWord : Option Str) (now : Int)
    (entry : WordEntry) : Rat :=
  let record := getStat stats entry.word
  let noveltyBonus : Rat := if record.exposures = 0 then 0.6 else 0
  let recentMissBonus : Rat := if now - record.lastMiss < 36 * 60 * 60 * 1000 then 0.5 else 0
  let recencyPenalty : Rat := if some entry.word = lastWord then 0.5 else 1
  (0.2 + (1 - record.mastery) * 0.9 + noveltyBonus + recentMissBonus) * recencyPenalty

/-- The subtraction loop of `pickWeighted` (lines 211-216): walk the
candidates, subtracting each weight from the drawn roll, and return the
first candidate at which the roll has dropped to zero or below. -/
def pickLoop (w : WordEntry → Rat) : List WordEntry → Rat → Option WordEntry
  | [], _ => none
  | e :: rest, roll =>
    if roll - w e ≤ 0 then some e else pickLoop w rest (roll - w e)

/-- Source `pickWeighted` (lines 191-218) with the drawn value
`Math.random() * total` injected as `roll`: run the subtraction loop and
fall back to the first candidate when the loop exhausts the list. -/
def pickWeighted (entries : List WordEntry) (stats : List (Str × WordStat))
    (lastWord : Option Str) (now : Int) (roll : Rat) : Option WordEntry :=
  match pickLoop (wordWeight stats lastWord now) entries roll with
  | some e => some e
  | none => entries.head?

/-- The filling loop of `pickChoices` (lines 223-230): walk the shuffled
pool, stop as soon as the choice list has reached the target size, and
append only entries whose word differs from the correct word. -/
def fillChoices (correct : WordEntry) (size : Nat) :
    List WordEntry → List WordEntry → List WordEntry
  | [], choices => choices
  | e :: rest, choices =>
    if size ≤ choices.length then choices
    else if e.word = correct.word then fillChoices correct size rest choices
    else fillChoices correct size rest (choices ++ [e])

/-- Source `pickChoices` (lines 220-232) with the two in-place shuffles
injected: the pool is consumed already shuffled, and the final shuffle is
modelled as a permutation hypothesis where the function is used. -/
def pickChoices (shuffledPool : List WordEntry) (correct : WordEntry) (size : Nat) :
    List WordEntry :=
  fillChoices correct size shuffledPool [correct]

/-- First of two pool entries sharing the word "run". -/
def dupA : WordEntry :=
  { id := ['a'], word := ['r', 'u', 'n'], hint := none }

/-- Second of two pool entries sharing the word "run". -/
def dupB : WordEntry :=
  { id := ['b'], word := ['r', 'u', 'n'], hint := none }

/-- A pool entry with word "fish", for witnesses. -/
def wfish : WordEntry :=
  { id := ['f'], word := ['f', 'i', 's', 'h'], hint := none }

/-- The missed-words update inside `applyAnswer` (lines 556-558): append
the word unless it is already on the list. -/
def addMissed (missed : List Str) (word : Str) : List Str :=
  if word ∈ missed then missed else missed ++ [word]

/-- The session's missed-words list after a sequence of answered questions,
each event giving the question's word and the verdict: only incorrect
answers touch the list. A new session starts from the empty list. -/
def runMissed (events : List (Str × Bool)) : List Str :=
  events.foldl (fun missed e => if e.2 = true then missed else addMissed missed e.1) []

/-- JavaScript `Array.prototype.join("\n")`, the text of the export file
built by `exportMissed` (line 698). -/
def joinNL : List Str → Str
  | [] => []
  | [s] => s
  | s :: s2 :: rest => s ++ '\n' :: joinNL (s2 :: rest)

/-- The downloadable review file offered at session end. -/
def exportMissedText (missed : List Str) : Str :=
  joinNL missed

/-- Deduplication keeping first occurrences, the specification's reading of
"the deduplicated missed words in first-miss order". -/
def firstOccur : List Str → List Str
  | [] => []
  | w :: rest => w :: firstOccur (rest.filter (fun x => decide (x ≠ w)))
termination_by l => l.length
decreasing_by
  simp only [List.length_cons]
  exact Nat.lt_succ_of_le (List.length_filter_le _ _)

/-- Concrete answered-question events for the claim C8 witness: "run"
missed twice, "sun" answered correctly, "fog" missed once. -/
def missEvents : List (Str × Bool) :=
  [(['r', 'u', 'n'], false), (['s', 'u', 'n'], true),
   (['r', 'u', 'n'], false), (['f', 'o', 'g'], false)]

/-- Persistent daily goal, source type `DailyGoal`. -/
structure DailyGoal where
  date : Str
  correct : Nat
deriving DecidableEq

/-- Source `loadStats` (lines 69-79). The stored value is `none` when
`localStorage` has no entry under the key, and `some none` when the stored
text exists but `JSON.parse` throws; the `try`/`catch` is the Option on
the parse outcome, so the function is total and never propagates an
error. -/
def loadStats (stored : Option (Option (List (Str × WordStat)))) :
    List (Str × WordStat) :=
  match stored with
  | none => []
  | some none => []
  | some (some m) => m

/-- Source `loadDaily` (lines 85-99), with the same encoding of the raw
read and parse outcome: absent or unparseable data and a stored date other
than today all collapse to a fresh goal for today. -/
def loadDaily (today : Str) (stored : Option (Option DailyGoal)) : DailyGoal :=
  match stored with
  | none => { date := today, correct := 0 }
  | some none => { date := today, correct := 0 }
  | some (some parsed) =>
    if parsed.date ≠ today then { date := today, correct := 0 } else parsed

/-- The mutation-collection loop of `similarChoices` (lines 262-270), with
the stream of `mutateWord` outputs injected as `muts`: while fewer than
`target` variants are collected and fewer than 40 attempts have been spent,
take the next proposed mutation and keep it when it is nonempty, differs
from the normalised word, and is not already collected (the JS `Set`
preserves insertion order and ignores re-insertions). `fuel` is the
remaining attempt budget, 40 at entry. -/
def variantsLoop (normalized : Str) (target : Nat) (muts : Nat → Str) :
    Nat → Nat → List Str → List Str
  | 0, _, variants => variants
  | fuel + 1, guard, variants =>
    if variants.length < target then
      let next := muts guard
      let variants2 :=
        if next ≠ [] ∧ next ≠ normalized ∧ next ∉ variants then variants ++ [next]
        else variants
      variantsLoop normalized target muts fuel (guard + 1) variants2
    else variants

/-- Source `similarChoices` (lines 257-275): words shorter than 4
characters or containing a space fall back (`null`), as does a run that
could not collect `total - 1` distinct variants within 40 attempts;
otherwise the result is the normalised word followed by the variants. -/
def similarChoices (word : Str) (total : Nat) (muts : Nat → Str) : Option (List Str) :=
  let normalized := jsTrim word
  if normalized.length < 4 ∨ (' ') ∈ normalized then none
  else
    let variants := variantsLoop normalized (total - 1) muts 40 0 []
    if variants.length < total - 1 then none
    else some (normalized :: variants)

/-- The mapping of variant strings to choice entries in `nextQuestion`
(lines 503-507): each variant becomes an entry whose id appends
`-var-` and the variant's position to the sampled entry's id. -/
def variantEntries (entry : WordEntry) (l : List Str) : List WordEntry :=
  l.enum.map (fun p =>
    { id := entry.id ++ ("-var-".toList ++ natChars p.1)
      word := p.2
      hint := entry.hint })

/-- JavaScript `Array.prototype.findIndex`: the index of the first element
satisfying the predicate, or -1. -/
def jsFindIndex {A : Type} (p : A → Bool) : List A → Int
  | [] => -1
  | a :: rest =>
    if p a then 0
    else
      let r := jsFindIndex p rest
      if r < 0 then -1 else r + 1

/-- Entry with word "word" for the claim C10 witness. -/
def simEntry : WordEntry :=
  { id := ['w'], word := ['w', 'o', 'r', 'd'], hint := none }

/-- A constant mutation stream proposing "wodr" for the claim C10 witness. -/
def simMuts : Nat → Str :=
  fun _ => ['w', 'o', 'd', 'r']

/-- The variant list `similarChoices` collects in the claim C10 witness. -/
def simVariants : List Str :=
  [['w', 'o', 'r', 'd'], ['w', 'o', 'd', 'r']]

/-- The clamped value sits between the bounds whenever the bounds are
ordered. -/
theorem clamp_mem {A : Type} [LinearOrder A] (value lo hi : A) (h : lo ≤ hi) :
    lo ≤ clamp value lo hi ∧ clamp value lo hi ≤ hi := by
  constructor
  · exact le_min h (le_max_left lo value)
  · exact min_le_left hi (max lo value)

/-- One mastery event keeps mastery inside [0,1]. -/
theorem stepStat_mastery_mem (stat : WordStat) (e : MasteryEvent)
    (h : 0 ≤ stat.mastery ∧ stat.mastery ≤ 1) :
    0 ≤ (stepStat stat e).mastery ∧ (stepStat stat e).mastery ≤ 1 := by
  cases e with
  | answer c now =>
    cases c <;> simp only [stepStat, applyAnswerStat, if_true, if_false,
      Bool.false_eq_true] <;> exact clamp_mem _ 0 1 (by norm_num)
  | rate r =>
    cases r with
    | know => exact clamp_mem _ 0 1 (by norm_num)
    | unsure => exact clamp_mem _ 0 1 (by norm_num)
    | neutral => exact h

theorem runStat_mastery_mem_aux (events : List MasteryEvent) :
    ∀ stat : WordStat, 0 ≤ stat.mastery ∧ stat.mastery ≤ 1 →
      0 ≤ (events.foldl stepStat stat).mastery ∧
        (events.foldl stepStat stat).mastery ≤ 1 := by
  induction events with
  | nil => intro stat h; exact h
  | cons e rest ih =>
    intro stat h
    exact ih (stepStat stat e) (stepStat_mastery_mem stat e h)

/-- Claim C1: starting from the initial record (mastery 0.4), every
sequence of answer outcomes (+0.08 on correct, -0.12 on incorrect) and
self-ratings (+0.1 / -0.1 / 0) leaves the word's mastery inside [0,1]. -/
theorem claim1_mastery_bounds (events : List MasteryEvent) :
    0 ≤ (runStat events).mastery ∧ (runStat events).mastery ≤ 1 :=
  runStat_mastery_mem_aux events initialStat (by norm_num [initialStat])

/-- Claim C2: from a fresh session (score 0, streak 0, combo 1), five
consecutive correct answers leave streak 5 and combo multiplier 2, with the
score passing through 10, 20, 40, 60, 80 — increments 10, 10, 20, 20, 20
for streaks 1 through 5 — because each step computes the combo as
`clamp(1 + floor(streak / 3), 1, 5)` from the incremented streak and adds
`10 * combo` to the score. -/
theorem claim2_five_correct_scoring :
    (runSession 600 (List.replicate 5 true)).streak = 5 ∧
    (runSession 600 (List.replicate 5 true)).combo = 2 ∧
    (runSession 600 (List.replicate 1 true)).score = 10 ∧
    (runSession 600 (List.replicate 2 true)).score = 20 ∧
    (runSession 600 (List.replicate 3 true)).score = 40 ∧
    (runSession 600 (List.replicate 4 true)).score = 60 ∧
    (runSession 600 (List.replicate 5 true)).score = 80 := by
  decide

/-- One answer event keeps energy inside [0,100]. -/
theorem applyAnswerSession_energy_mem (isCorrect : Bool) (s : SessionState) :
    0 ≤ (applyAnswerSession isCorrect s).energy ∧
      (applyAnswerSession isCorrect s).energy ≤ 100 :=
  clamp_mem _ 0 100 (by norm_num)

theorem runSession_energy_mem_aux (events : List Bool) :
    ∀ s : SessionState, 0 ≤ s.energy ∧ s.energy ≤ 100 →
      0 ≤ (events.foldl (fun s c => applyAnswerSession c s) s).energy ∧
        (events.foldl (fun s c => applyAnswerSession c s) s).energy ≤ 100 := by
  induction events with
  | nil => intro s h; exact h
  | cons e rest ih =>
    intro s _
    exact ih (applyAnswerSession e s) (applyAnswerSession_energy_mem e s)

/-- Claim C3: over every sequence of answer events the session's energy
stays within [0,100] (moving by +8 / -18 clamped from the initial 100), and
in any reached state whose energy is at most 0 the session-end check fires,
whatever the remaining time and whether or not zen mode is active. -/
theorem claim3_energy_bounds_and_end (t : Int) (events : List Bool) (zen : Bool) :
    (0 ≤ (runSession t events).energy ∧ (runSession t events).energy ≤ 100) ∧
    ((runSession t events).energy ≤ 0 →
      sessionShouldEnd zen (runSession t events) = true) := by
  refine ⟨runSession_energy_mem_aux events (initSession t) (by norm_num [initSession]), ?_⟩
  intro h
  simp [sessionShouldEnd, h]

/-- Witness for claim C3: six straight misses drain the energy from 100 to
exactly 0, and the end check then fires even in zen mode with a huge clock. -/
theorem claim3_witness :
    ((runSession 9999 (List.replicate 6 false)).energy ≤ 0) ∧
      sessionShouldEnd true (runSession 9999 (List.replicate 6 false)) = true :=
  ⟨by decide, (claim3_energy_bounds_and_end 9999 (List.replicate 6 false) true).2 (by decide)⟩

theorem runStat_counts_aux (events : List MasteryEvent) :
    ∀ stat : WordStat, stat.correct + stat.incorrect = stat.exposures →
      (events.foldl stepStat stat).correct + (events.foldl stepStat stat).incorrect =
        (events.foldl stepStat stat).exposures := by
  induction events with
  | nil => intro stat h; exact h
  | cons e rest ih =>
    intro stat h
    refine ih (stepStat stat e) ?_
    cases e with
    | answer c now =>
      cases c <;> simp [stepStat, applyAnswerStat] <;> omega
    | rate r => cases r <;> simpa [stepStat, applySelfRating] using h

/-- Claim C7: from the initial record (all counters 0), every sequence of
answer outcomes and self-ratings preserves
`correct + incorrect = exposures` — each answer bumps `exposures` and
exactly one of `correct`/`incorrect`, and self-ratings touch none of the
three counters. In particular the invariant holds whenever exposures is
positive. -/
theorem claim7_counter_invariant (events : List MasteryEvent) :
    (runStat events).correct + (runStat events).incorrect =
      (runStat events).exposures :=
  runStat_counts_aux events initialStat rfl

/-- One loop iteration adds 1 to the blank-line counter exactly when the
line trims to nothing, for every flag setting. -/
theorem parseStep_emptyCount (re rd : Bool) (i : Nat) (line : Str) (st : ParseState) :
    (parseStep re rd i line st).emptyCount =
      st.emptyCount + (if jsTrim line = [] then 1 else 0) := by
  by_cases h : jsTrim line = []
  · simp only [parseStep, h, if_pos, if_true, true_and]
    by_cases hre : re = true
    · simp [hre]
    · simp only [hre, if_false]
      have hsplit : splitDash [] = [[]] := rfl
      simp [hsplit, jsTrim]
  · simp only [parseStep, h, if_false, false_and, if_neg, ite_false]
    split
    · simp [h]
    · split
      · simp [h]
      · simp [h]

theorem parseAll_emptyCount (re rd : Bool) (lines : List Str) :
    ∀ (i : Nat) (st : ParseState),
      (parseAll re rd i lines st).emptyCount =
        st.emptyCount + lines.countP (fun l => jsTrim l == []) := by
  induction lines with
  | nil => intro i st; simp [parseAll]
  | cons line rest ih =>
    intro i st
    simp only [parseAll, ih, parseStep_emptyCount, List.countP_cons]
    by_cases h : jsTrim line = []
    all_goals simp [h]
    all_goals omega

/-- Counterexample to claim C6 as stated: on the one-character input made
of a single newline, normalising and splitting yields two lines, both
whitespace-only, yet `parseLines` short-circuits on blank input and reports
zero total lines and zero empty lines. -/
theorem claim6_counterexample :
    (splitNL (replaceCR (replaceCRLF ['\n']))).length = 2 ∧
    (splitNL (replaceCR (replaceCRLF ['\n']))).countP (fun l => jsTrim l == []) = 2 ∧
    (parseLines ['\n'] true true).totalLines = 0 ∧
    (parseLines ['\n'] true true).emptyCount = 0 ∧
    (parseLines ['\n'] true true).totalLines ≠
      (splitNL (replaceCR (replaceCRLF ['\n']))).length := by
  refine ⟨rfl, by decide, rfl, rfl, by decide⟩

/-- Claim C6 (amended): for every raw input whose text does not trim to
nothing, and every setting of the two cleanup flags, `totalLines` equals
the number of lines obtained by normalising line endings and splitting the
input, and `emptyCount` equals the number of whitespace-only lines among
them whether or not removal is enabled. (On input that trims to nothing the
parser short-circuits and reports zero for both.) -/
theorem claim6_parser_counts (rawText : Str) (re rd : Bool)
    (h : jsTrim rawText ≠ []) :
    (parseLines rawText re rd).totalLines =
      (splitNL (replaceCR (replaceCRLF rawText))).length ∧
    (parseLines rawText re rd).emptyCount =
      (splitNL (replaceCR (replaceCRLF rawText))).countP (fun l => jsTrim l == []) := by
  unfold parseLines
  rw [if_neg h]
  refine ⟨rfl, ?_⟩
  simp [parseAll_emptyCount]

/-- Witness for claim C6: the three-line input "a", blank, "b" has three
total lines, one of them whitespace-only, and the parser reports exactly
that. -/
theorem claim6_witness :
    (jsTrim ['a', '\n', ' ', '\n', 'b'] ≠ []) ∧
    ((parseLines ['a', '\n', ' ', '\n', 'b'] true true).totalLines =
        (splitNL (replaceCR (replaceCRLF ['a', '\n', ' ', '\n', 'b']))).length ∧
      (parseLines ['a', '\n', ' ', '\n', 'b'] true true).emptyCount =
        (splitNL (replaceCR (replaceCRLF ['a', '\n', ' ', '\n', 'b']))).countP
          (fun l => jsTrim l == [])) :=
  ⟨by decide, claim6_parser_counts ['a', '\n', ' ', '\n', 'b'] true true (by decide)⟩

/-- Whatever the loop returns was one of the candidates. -/
theorem pickLoop_mem (w : WordEntry → Rat) (entries : List WordEntry) :
    ∀ (roll : Rat) (e : WordEntry), pickLoop w entries roll = some e → e ∈ entries := by
  induction entries with
  | nil => intro roll e h; simp [pickLoop] at h
  | cons a rest ih =>
    intro roll e h
    simp only [pickLoop] at h
    by_cases hle : roll - w a ≤ 0
    · rw [if_pos hle] at h
      simp only [Option.some.injEq] at h
      exact h ▸ List.mem_cons_self a rest
    · rw [if_neg hle] at h
      exact List.mem_cons_of_mem a (ih (roll - w a) e h)

/-- Claim C4: for every non-empty pool and every drawn roll, the sampler
returns an element of the supplied pool — the subtraction loop only ever
returns candidates, and the fallback is the first candidate — and the
per-word weight the loop subtracts is exactly the weight formula of the
specification. -/
theorem claim4_sampler_in_pool (entries : List WordEntry)
    (stats : List (Str × WordStat)) (lastWord : Option Str) (now : Int)
    (roll : Rat) (h : entries ≠ []) :
    (∃ e, pickWeighted entries stats lastWord now roll = some e ∧ e ∈ entries) ∧
    (∀ entry, wordWeight stats lastWord now entry = specWeight stats lastWord now entry) := by
  constructor
  · unfold pickWeighted
    cases hp : pickLoop (wordWeight stats lastWord now) entries roll with
    | some e => exact ⟨e, rfl, pickLoop_mem _ entries roll e hp⟩
    | none =>
      cases entries with
      | nil => exact absurd rfl h
      | cons a rest => exact ⟨a, rfl, List.mem_cons_self a rest⟩
  · intro entry
    unfold wordWeight specWeight
    rfl

/-- Witness for claim C4: a concrete two-word pool with an empty stats
mapping, the previous word set to the first word, and a concrete roll. -/
theorem claim4_witness :
    (([⟨['a'], ['r', 'u', 'n'], none⟩,
       ⟨['b'], ['s', 'u', 'n'], none⟩] : List WordEntry) ≠ []) ∧
    ((∃ e, pickWeighted [⟨['a'], ['r', 'u', 'n'], none⟩, ⟨['b'], ['s', 'u', 'n'], none⟩]
        [] (some ['r', 'u', 'n']) 0 1 = some e ∧
        e ∈ [(⟨['a'], ['r', 'u', 'n'], none⟩ : WordEntry), ⟨['b'], ['s', 'u', 'n'], none⟩]) ∧
      (∀ entry, wordWeight [] (some ['r', 'u', 'n']) 0 entry =
        specWeight [] (some ['r', 'u', 'n']) 0 entry)) :=
  ⟨by decide,
   claim4_sampler_in_pool [⟨['a'], ['r', 'u', 'n'], none⟩, ⟨['b'], ['s', 'u', 'n'], none⟩]
     [] (some ['r', 'u', 'n']) 0 1 (by decide)⟩

theorem countP_not_add {A : Type} (p : A → Bool) (l : List A) :
    l.countP p + l.countP (fun a => !(p a)) = l.length := by
  induction l with
  | nil => simp
  | cons a rest ih =>
    simp only [List.countP_cons, List.length_cons]
    cases h : p a <;> simp [h] <;> omega

theorem fillChoices_length (correct : WordEntry) (size : Nat) :
    ∀ (l acc : List WordEntry), acc.length ≤ size →
      (fillChoices correct size l acc).length =
        min size (acc.length + l.countP (fun e => !(e.word == correct.word))) := by
  intro l
  induction l with
  | nil =>
    intro acc h
    simp only [fillChoices, List.countP_nil, Nat.add_zero]
    omega
  | cons e rest ih =>
    intro acc h
    simp only [fillChoices, List.countP_cons]
    by_cases hstop : size ≤ acc.length
    · rw [if_pos hstop]
      omega
    · rw [if_neg hstop]
      by_cases hw : e.word = correct.word
      · rw [if_pos hw, ih acc h]
        have hb : (e.word == correct.word) = true := beq_iff_eq.mpr hw
        simp [hb]
      · rw [if_neg hw, ih (acc ++ [e])
          (by simp only [List.length_append, List.length_cons, List.length_nil]; omega)]
        have hb : (e.word == correct.word) = false := beq_eq_false_iff_ne.mpr hw
        simp [hb]
        all_goals omega

/-- In a pool whose words are pairwise distinct, exactly one entry carries
any word that occurs in the pool. -/
theorem countP_word_eq_one :
    ∀ (pool : List WordEntry) (w : Str),
      (pool.map WordEntry.word).Nodup → w ∈ pool.map WordEntry.word →
      pool.countP (fun e => e.word == w) = 1 := by
  intro pool
  induction pool with
  | nil => intro w _ hmem; simp at hmem
  | cons a rest ih =>
    intro w hnd hmem
    simp only [List.map_cons, List.nodup_cons] at hnd
    by_cases hw : a.word = w
    · have hz : rest.countP (fun e => e.word == w) = 0 := by
        rw [List.countP_eq_zero]
        intro e he hbeq
        have hew : e.word = w := by simpa using hbeq
        exact hnd.1 (List.mem_map.mpr ⟨e, he, hew.trans hw.symm⟩)
      simp [List.countP_cons, hz, hw]
    · have hb : (a.word == w) = false := by simp [hw]
      simp only [List.countP_cons, hb, Bool.false_eq_true, if_false, Nat.add_zero]
      apply ih w hnd.2
      simp only [List.map_cons, List.mem_cons] at hmem
      rcases hmem with h | h
      · exact absurd h.symm hw
      · exact h

/-- Counterexample to claim C5 as stated: a pool of two entries that carry
the same word (reachable whenever duplicate removal is disabled) has target
size `min(4, max(2, 2)) = 2`, yet the filling loop can never add a second
choice because every remaining entry's word equals the correct word, so the
generated choice set has only 1 element. -/
theorem claim5_counterexample :
    (pickChoices [dupA, dupB] dupA (min 4 (max 2 2))).length = 1 ∧
    (pickChoices [dupA, dupB] dupA (min 4 (max 2 2))).length ≠
      min 4 (max 2 ([dupA, dupB] : List WordEntry).length) := by
  decide

/-- The variant-collection loop never gathers more than its target: once
the target is reached the loop stops adding, and each attempt adds at most
one variant. -/
theorem variantsLoop_length_le (normalized : Str) (target : Nat) (muts : Nat → Str) :
    ∀ (fuel guard : Nat) (acc : List Str), acc.length ≤ target →
      (variantsLoop normalized target muts fuel guard acc).length ≤ target := by
  intro fuel
  induction fuel with
  | zero =>
    intro guard acc h
    simpa [variantsLoop] using h
  | succ fuel ih =>
    intro guard acc h
    simp only [variantsLoop]
    split_ifs with hlt hadd
    · exact ih (guard + 1) _
        (by simp only [List.length_append, List.length_cons, List.length_nil]; omega)
    · exact ih (guard + 1) acc h
    · exact h

/-- A successful `similarChoices` run returns exactly `total` strings: the
guard rejects runs that collected fewer than `total - 1` variants, and the
loop never collects more. -/
theorem similarChoices_length (word : Str) (total : Nat) (muts : Nat → Str)
    (l : List Str) (ht : 1 ≤ total)
    (h : similarChoices word total muts = some l) : l.length = total := by
  simp only [similarChoices] at h
  by_cases h1 : (jsTrim word).length < 4 ∨ (' ') ∈ jsTrim word
  · rw [if_pos h1] at h; cases h
  · rw [if_neg h1] at h
    by_cases h2 : (variantsLoop (jsTrim word) (total - 1) muts 40 0 []).length < total - 1
    · rw [if_pos h2] at h; cases h
    · rw [if_neg h2] at h
      injection h with h3
      have hle : (variantsLoop (jsTrim word) (total - 1) muts 40 0 []).length ≤ total - 1 :=
        variantsLoop_length_le (jsTrim word) (total - 1) muts 40 0 [] (by simp)
      rw [← h3]
      simp only [List.length_cons]
      omega

/-- Mapping variants to choice entries preserves the count. -/
theorem variantEntries_length (entry : WordEntry) (l : List Str) :
    (variantEntries entry l).length = l.length := by
  simp [variantEntries]

/-- Claim C5 (amended): for every choice-mode question generated from a
pool of size at least 2 whose words are pairwise distinct — which holds for
every pool produced with duplicate removal enabled — the choice set
contains exactly `min(4, max(2, poolSize))` candidates, whatever shuffles
the random sorts produce, on both distractor paths: the word-mutation path
(a successful `similarChoices` run returns exactly that many strings) and
the pool fallback (the filling loop finds enough distinct-word entries).
When the pool contains entries with equal word strings the fallback set can
be smaller. -/
theorem claim5_choice_count (pool shuffled final simFinal : List WordEntry)
    (correct : WordEntry) (muts : Nat → Str) (l : List Str)
    (hnd : (pool.map WordEntry.word).Nodup) (hmem : correct ∈ pool)
    (h2 : 2 ≤ pool.length) :
    (similarChoices correct.word (min 4 (max 2 pool.length)) muts = some l →
      simFinal.Perm (variantEntries correct l) →
      simFinal.length = min 4 (max 2 pool.length)) ∧
    (shuffled.Perm pool →
      final.Perm (pickChoices shuffled correct (min 4 (max 2 pool.length))) →
      final.length = min 4 (max 2 pool.length)) := by
  constructor
  · intro hsim hperm
    have hlen : l.length = min 4 (max 2 pool.length) :=
      similarChoices_length correct.word _ muts l
        (le_min (by norm_num) (le_trans (by norm_num) (le_max_left 2 _))) hsim
    rw [hperm.length_eq, variantEntries_length, hlen]
  · intro hsh hfin
    set size := min 4 (max 2 pool.length) with hsize
    have hn : max 2 pool.length = pool.length := max_eq_right h2
    have hsz_le : size ≤ pool.length := by
      rw [hsize, hn]; exact min_le_right 4 _
    have hsz2 : 2 ≤ size := by
      rw [hsize]; exact le_min (by norm_num) (le_max_left _ _)
    have hcnt1 : pool.countP (fun e => e.word == correct.word) = 1 :=
      countP_word_eq_one pool correct.word hnd (List.mem_map.mpr ⟨correct, hmem, rfl⟩)
    have hsum : pool.countP (fun e => e.word == correct.word) +
        pool.countP (fun e => !(e.word == correct.word)) = pool.length :=
      countP_not_add _ pool
    rw [hfin.length_eq]
    unfold pickChoices
    rw [fillChoices_length correct size shuffled [correct]
      (by simp only [List.length_cons, List.length_nil]; omega)]
    have hcsh : shuffled.countP (fun e => !(e.word == correct.word)) =
        pool.countP (fun e => !(e.word == correct.word)) := hsh.countP_eq _
    rw [hcsh]
    simp only [List.length_cons, List.length_nil]
    omega

/-- Witness for the amended claim C5: on the distinct-word pool "word",
"fish" with target size `min(4, max(2, 2)) = 2`, the mutation path collects
the variant "wodr" and yields exactly 2 choices, and the pool fallback also
fills the choice set to exactly 2 candidates. -/
theorem claim5_witness :
    ((([simEntry, wfish] : List WordEntry).map WordEntry.word).Nodup ∧
      simEntry ∈ ([simEntry, wfish] : List WordEntry) ∧
      2 ≤ ([simEntry, wfish] : List WordEntry).length ∧
      similarChoices simEntry.word
        (min 4 (max 2 ([simEntry, wfish] : List WordEntry).length)) simMuts =
        some simVariants) ∧
    (variantEntries simEntry simVariants).length =
      min 4 (max 2 ([simEntry, wfish] : List WordEntry).length) ∧
    (pickChoices [simEntry, wfish] simEntry
        (min 4 (max 2 ([simEntry, wfish] : List WordEntry).length))).length =
      min 4 (max 2 ([simEntry, wfish] : List WordEntry).length) :=
  ⟨⟨by decide, by decide, by decide, by decide⟩,
   (claim5_choice_count [simEntry, wfish] [simEntry, wfish]
      (pickChoices [simEntry, wfish] simEntry
        (min 4 (max 2 ([simEntry, wfish] : List WordEntry).length)))
      (variantEntries simEntry simVariants) simEntry simMuts simVariants
      (by decide) (by decide) (by decide)).1 (by decide) (List.Perm.refl _),
   (claim5_choice_count [simEntry, wfish] [simEntry, wfish]
      (pickChoices [simEntry, wfish] simEntry
        (min 4 (max 2 ([simEntry, wfish] : List WordEntry).length)))
      (variantEntries simEntry simVariants) simEntry simMuts simVariants
      (by decide) (by decide) (by decide)).2 (List.Perm.refl _) (List.Perm.refl _)⟩

theorem runMissed_foldl (events : List (Str × Bool)) :
    ∀ acc : List Str,
      events.foldl (fun missed e => if e.2 = true then missed else addMissed missed e.1) acc =
        ((events.filter (fun e => !e.2)).map Prod.fst).foldl addMissed acc := by
  induction events with
  | nil => intro acc; rfl
  | cons e rest ih =>
    intro acc
    cases hb : e.2 with
    | true => simp [hb, ih]
    | false => simp [hb, ih]

theorem foldl_addMissed (ws : List Str) :
    ∀ acc : List Str,
      ws.foldl addMissed acc = acc ++ firstOccur (ws.filter (fun x => decide (x ∉ acc))) := by
  induction ws with
  | nil => intro acc; simp [firstOccur]
  | cons w rest ih =>
    intro acc
    by_cases hmem : w ∈ acc
    · have h1 : addMissed acc w = acc := by simp [addMissed, hmem]
      have h2 : (decide (w ∉ acc)) = false := by simp [hmem]
      simp only [List.foldl_cons, h1, List.filter_cons, h2, Bool.false_eq_true, if_false]
      exact ih acc
    · have h1 : addMissed acc w = acc ++ [w] := by simp [addMissed, hmem]
      have h2 : (decide (w ∉ acc)) = true := by simp [hmem]
      simp only [List.foldl_cons, h1, List.filter_cons, h2, if_true]
      rw [ih (acc ++ [w]), firstOccur]
      have hfil : rest.filter (fun x => decide (x ∉ acc ++ [w])) =
          (rest.filter (fun x => decide (x ∉ acc))).filter (fun x => decide (x ≠ w)) := by
        rw [List.filter_filter]
        apply List.filter_congr
        intro x _
        by_cases hxw : x = w <;> by_cases hxa : x ∈ acc <;> simp [hxw, hxa]
      rw [hfil]
      simp [List.append_assoc]

/-- A string without a newline splits into the single segment it is. -/
theorem splitNL_no_newline (s : Str) (h : ('\n') ∉ s) : splitNL s = [s] := by
  induction s with
  | nil => rfl
  | cons c rest ih =>
    have hc : c ≠ '\n' := fun hh => h (hh ▸ List.mem_cons_self c rest)
    have hr : ('\n') ∉ rest := fun hh => h (List.mem_cons_of_mem c hh)
    simp only [splitNL, if_neg hc, ih hr]

theorem splitNL_append_newline (s t : Str) (h : ('\n') ∉ s) :
    splitNL (s ++ '\n' :: t) = s :: splitNL t := by
  induction s with
  | nil => simp [splitNL]
  | cons c rest ih =>
    have hc : c ≠ '\n' := fun hh => h (hh ▸ List.mem_cons_self c rest)
    have hr : ('\n') ∉ rest := fun hh => h (List.mem_cons_of_mem c hh)
    simp only [List.cons_append, splitNL, if_neg hc, List.append_eq]
    rw [ih hr]

/-- Splitting the newline-join of a nonempty list of newline-free strings
recovers the list. -/
theorem splitNL_joinNL (l : List Str) (hne : l ≠ [])
    (hnl : ∀ w ∈ l, ('\n') ∉ w) : splitNL (joinNL l) = l := by
  induction l with
  | nil => exact absurd rfl hne
  | cons s rest ih =>
    cases rest with
    | nil =>
      simp only [joinNL]
      exact splitNL_no_newline s (hnl s (List.mem_cons_self _ _))
    | cons s2 rest2 =>
      simp only [joinNL]
      rw [splitNL_append_newline s _ (hnl s (List.mem_cons_self _ _))]
      rw [ih (by simp) (fun w hw => hnl w (List.mem_cons_of_mem s hw))]

/-- Claim C8: the missed-words list a session accumulates is exactly the
deduplicated list of incorrectly-answered words in order of first
occurrence, and — because the words of a session contain no newline and the
export is only offered when the list is nonempty — splitting the exported
newline-join on newlines recovers exactly that list. -/
theorem claim8_missed_export (events : List (Str × Bool))
    (hne : runMissed events ≠ [])
    (hnl : ∀ w ∈ runMissed events, ('\n') ∉ w) :
    runMissed events = firstOccur ((events.filter (fun e => !e.2)).map Prod.fst) ∧
    splitNL (exportMissedText (runMissed events)) = runMissed events := by
  constructor
  · rw [runMissed, runMissed_foldl events [], foldl_addMissed]
    have hfil : ((events.filter (fun e => !e.2)).map Prod.fst).filter
        (fun x => decide (x ∉ ([] : List Str))) =
        (events.filter (fun e => !e.2)).map Prod.fst := by
      apply List.filter_eq_self.mpr
      intro x _
      simp
    rw [hfil, List.nil_append]
  · exact splitNL_joinNL _ hne hnl

/-- Witness for claim C8: on the concrete event list the missed-word list
is nonempty and newline-free, so the round-trip theorem applies. -/
theorem claim8_witness :
    (runMissed missEvents ≠ [] ∧ ∀ w ∈ runMissed missEvents, ('\n') ∉ w) ∧
    (runMissed missEvents =
        firstOccur ((missEvents.filter (fun e => !e.2)).map Prod.fst) ∧
      splitNL (exportMissedText (runMissed missEvents)) = runMissed missEvents) :=
  ⟨⟨by decide, by decide⟩, claim8_missed_export missEvents (by decide) (by decide)⟩

/-- Claim C9: loading the persisted mastery mapping is total and yields the
empty mapping whenever the stored value is absent or malformed, and loading
the daily goal is total and yields a zeroed goal dated today whenever the
stored value is absent, malformed, or carries a date different from the
current day. -/
theorem claim9_load_defaults (today : Str)
    (storedStats : Option (Option (List (Str × WordStat))))
    (storedDaily : Option (Option DailyGoal))
    (hS : storedStats = none ∨ storedStats = some none)
    (hD : storedDaily = none ∨ storedDaily = some none ∨
      ∃ g, storedDaily = some (some g) ∧ g.date ≠ today) :
    loadStats storedStats = [] ∧
    loadDaily today storedDaily = { date := today, correct := 0 } := by
  constructor
  · rcases hS with h | h <;> rw [h] <;> rfl
  · rcases hD with h | h | ⟨g, hg, hdate⟩
    · rw [h]; rfl
    · rw [h]; rfl
    · rw [hg]; simp [loadDaily, hdate]

/-- Witness for claim C9: a malformed stored mapping and a stored goal
whose date is not today both collapse to their defaults. -/
theorem claim9_witness :
    ((some none = (none : Option (Option (List (Str × WordStat)))) ∨
        (some none : Option (Option (List (Str × WordStat)))) = some none) ∧
      ((some (some ⟨['x'], 5⟩) : Option (Option DailyGoal)) = none ∨
        (some (some ⟨['x'], 5⟩) : Option (Option DailyGoal)) = some none ∨
        ∃ g, (some (some ⟨['x'], 5⟩) : Option (Option DailyGoal)) = some (some g) ∧
          g.date ≠ ['d'])) ∧
    (loadStats (some none) = [] ∧
      loadDaily ['d'] (some (some ⟨['x'], 5⟩)) = { date := ['d'], correct := 0 }) :=
  ⟨⟨Or.inr rfl, Or.inr (Or.inr ⟨⟨['x'], 5⟩, rfl, by decide⟩)⟩,
   claim9_load_defaults ['d'] (some none) (some (some ⟨['x'], 5⟩))
     (Or.inr rfl) (Or.inr (Or.inr ⟨⟨['x'], 5⟩, rfl, by decide⟩))⟩

/-- When some element satisfies the predicate, `findIndex` returns a valid
index whose element satisfies the predicate. -/
theorem jsFindIndex_found {A : Type} (p : A → Bool) :
    ∀ l : List A, (∃ a ∈ l, p a = true) →
      ∃ (k : Nat) (c : A), jsFindIndex p l = (k : Int) ∧ k < l.length ∧
        l[k]? = some c ∧ p c = true := by
  intro l
  induction l with
  | nil => intro h; obtain ⟨a, ha, _⟩ := h; simp at ha
  | cons b rest ih =>
    intro h
    obtain ⟨a, ha, hpa⟩ := h
    by_cases hb : p b = true
    · exact ⟨0, b, by simp [jsFindIndex, hb], by simp, by simp, hb⟩
    · have hbf : p b = false := by revert hb; cases p b <;> simp
      have hmem : a ∈ rest := by
        rcases List.mem_cons.mp ha with hh | hh
        · rw [hh] at hpa; rw [hpa] at hbf; cases hbf
        · exact hh
      obtain ⟨k, c, h1, h2, h3, h4⟩ := ih ⟨a, hmem, hpa⟩
      refine ⟨k + 1, c, ?_, by simpa using h2, by simpa using h3, h4⟩
      simp only [jsFindIndex, hbf, Bool.false_eq_true, if_false]
      rw [h1, if_neg (by omega)]
      push_cast
      ring

/-- Everything in the accumulator survives the choice-filling loop. -/
theorem fillChoices_mem_acc (correct : WordEntry) (size : Nat) :
    ∀ (l acc : List WordEntry) (x : WordEntry), x ∈ acc →
      x ∈ fillChoices correct size l acc := by
  intro l
  induction l with
  | nil => intro acc x hx; simpa [fillChoices] using hx
  | cons e rest ih =>
    intro acc x hx
    simp only [fillChoices]
    split
    · exact hx
    · split
      · exact ih acc x hx
      · exact ih (acc ++ [e]) x (List.mem_append_left _ hx)

/-- A successful `similarChoices` run returns the normalised word followed
by the collected variants. -/
theorem similarChoices_eq (word : Str) (total : Nat) (muts : Nat → Str)
    (l : List Str) (h : similarChoices word total muts = some l) :
    l = jsTrim word :: variantsLoop (jsTrim word) (total - 1) muts 40 0 [] := by
  simp only [similarChoices] at h
  by_cases h1 : (jsTrim word).length < 4 ∨ (' ') ∈ jsTrim word
  · rw [if_pos h1] at h; cases h
  · rw [if_neg h1] at h
    by_cases h2 : (variantsLoop (jsTrim word) (total - 1) muts 40 0 []).length < total - 1
    · rw [if_pos h2] at h; cases h
    · rw [if_neg h2] at h
      injection h with h3
      exact h3.symm

/-- Every word of the variant list appears as the word of some generated
choice entry. -/
theorem variantEntries_word_mem (entry : WordEntry) (l : List Str) (w : Str)
    (hw : w ∈ l) : ∃ c ∈ variantEntries entry l, c.word = w := by
  have h1 : w ∈ l.enum.map Prod.snd := by
    rw [List.enum_map_snd]; exact hw
  obtain ⟨p, hp, hpw⟩ := List.mem_map.mp h1
  exact ⟨_, List.mem_map_of_mem _ hp, hpw⟩

/-- Claim C10: for every generated choice-mode question, on both distractor
paths — the word-mutation path (whose variants are filtered to be nonempty
and different from the normalised correct word) and the pool fallback
(whose entries are filtered to differ from the correct word by value) —
`findIndex` recomputed after the final shuffle yields a valid index
`0 ≤ correctIndex < choices.length`, and the choice stored there is
string-equal to the sampled word. The sampled word carries no surrounding
whitespace (the parser trims every word), which the hypothesis records. -/
theorem claim10_correct_index (entry : WordEntry) (total size : Nat)
    (muts : Nat → Str) (l : List Str)
    (simShuffled poolShuffled final : List WordEntry)
    (hTrim : jsTrim entry.word = entry.word) :
    (similarChoices entry.word total muts = some l →
      simShuffled.Perm (variantEntries entry l) →
      ∃ (k : Nat) (c : WordEntry),
        jsFindIndex (fun ch => ch.word == entry.word) simShuffled = (k : Int) ∧
        k < simShuffled.length ∧ simShuffled[k]? = some c ∧ c.word = entry.word) ∧
    (final.Perm (pickChoices poolShuffled entry size) →
      ∃ (k : Nat) (c : WordEntry),
        jsFindIndex (fun ch => ch.word == entry.word) final = (k : Int) ∧
        k < final.length ∧ final[k]? = some c ∧ c.word = entry.word) := by
  constructor
  · intro hsim hperm
    have hl := similarChoices_eq entry.word total muts l hsim
    have hwmem : entry.word ∈ l := by
      rw [hl, hTrim]
      exact List.mem_cons_self _ _
    obtain ⟨c0, hc0mem, hc0w⟩ := variantEntries_word_mem entry l entry.word hwmem
    obtain ⟨k, c, h1, h2, h3, h4⟩ :=
      jsFindIndex_found (fun ch => ch.word == entry.word) simShuffled
        ⟨c0, hperm.mem_iff.mpr hc0mem, beq_iff_eq.mpr hc0w⟩
    exact ⟨k, c, h1, h2, h3, beq_iff_eq.mp h4⟩
  · intro hperm
    have hmem : entry ∈ pickChoices poolShuffled entry size :=
      fillChoices_mem_acc entry size poolShuffled [entry] entry
        (List.mem_cons_self _ _)
    obtain ⟨k, c, h1, h2, h3, h4⟩ :=
      jsFindIndex_found (fun ch => ch.word == entry.word) final
        ⟨entry, hperm.mem_iff.mpr hmem, beq_iff_eq.mpr rfl⟩
    exact ⟨k, c, h1, h2, h3, beq_iff_eq.mp h4⟩

/-- Witness for claim C10: with the concrete word "word", a mutation stream
proposing "wodr", identity shuffles, and an empty fallback pool, both paths
yield a valid correct index pointing at the sampled word. -/
theorem claim10_witness :
    (jsTrim simEntry.word = simEntry.word ∧
      similarChoices simEntry.word 2 simMuts = some simVariants) ∧
    (∃ (k : Nat) (c : WordEntry),
      jsFindIndex (fun ch => ch.word == simEntry.word)
        (variantEntries simEntry simVariants) = (k : Int) ∧
      k < (variantEntries simEntry simVariants).length ∧
      (variantEntries simEntry simVariants)[k]? = some c ∧
      c.word = simEntry.word) ∧
    (∃ (k : Nat) (c : WordEntry),
      jsFindIndex (fun ch => ch.word == simEntry.word)
        (pickChoices [] simEntry 2) = (k : Int) ∧
      k < (pickChoices [] simEntry 2).length ∧
      (pickChoices [] simEntry 2)[k]? = some c ∧
      c.word = simEntry.word) :=
  ⟨⟨by decide, by decide⟩,
   (claim10_correct_index simEntry 2 2 simMuts simVariants
      (variantEntries simEntry simVariants) [] (pickChoices [] simEntry 2)
      (by decide)).1 (by decide) (List.Perm.refl _),
   (claim10_correct_index simEntry 2 2 simMuts simVariants
      (variantEntries simEntry simVariants) [] (pickChoices [] simEntry 2)
      (by decide)).2 (List.Perm.refl _)⟩

end NeonDrift
